import Mathlib

/-!
# Verification of `truncate_messages` (src/utils.py)

A shallow embedding of the conversation-window manager of the TriMind-AI
repository.  The single transformation under study is
`truncate_messages(messages, system_message, max_messages, max_tokens_approx)`
from `src/utils.py`, which trims a conversation history to fit a turn-count
budget and an approximate-size budget while trying to keep tool-call
sequences intact.

The embedding follows the Python source line by line:

* messages are normalized into a tagged variant (`Msg`), as the spec's design
  notes prescribe for the duck-typed Python shapes;
* the grouping loop (utils.py lines 58-116) becomes `groupMessages`;
* the backward selection loop (lines 118-161) becomes `selectLoop` followed by
  `List.reverse` — note that the Python code reverses the *flat* list of
  collected messages (`messages_to_add.reverse()`), which also reverses the
  internal order of every multi-message group; the embedding reproduces this
  faithfully;
* the first validation pass (lines 163-298) becomes `validateA`; its nested
  `while` loops are rendered as a state machine (`VMode`): `.normal` is the
  top of the outer loop, `.incl req included` is the inner inclusion loop of
  lines 225-252, `.skip req` is the inner skip loop of lines 205-217.
  The orphan `ToolMessage` branch (lines 257-291) skips the message in both
  of its `if` arms, so it is rendered as an unconditional skip;
* the final safety pass (lines 300-431) becomes `validateB`, with the same
  state-machine rendering; its look-ahead scan (lines 341-354) is `scanFound`;
* Python `set`s of ids are rendered as duplicate-free `List String` values and
  only ever used through membership, emptiness and subset tests.
-/

/-- One tool invocation declared by an assistant message, `{id, name, args}`
(the langchain `tool_call` shape).  `truncate_messages` only ever reads `id`;
an empty string models a missing or falsy id (`tool_call.id` falsy /
`tool_call.get('id')` returning nothing in Python). -/
structure ToolCall where
  id : String
  name : String
  args : String
deriving DecidableEq

/-- A conversation message: the normalized form of langchain `SystemMessage`,
`HumanMessage`, `AIMessage` (with its `tool_calls` list) and `ToolMessage`
(with its `tool_call_id`).  `content` is the textual payload; an empty
`tool_calls` list models an `AIMessage` without tool calls, and an empty
`tool_call_id` models a falsy id. -/
inductive Msg where
  | system (content : String)
  | human (content : String)
  | ai (content : String) (tool_calls : List ToolCall)
  | tool (content : String) (tool_call_id : String)
deriving DecidableEq

namespace Msg

/-- The `content` attribute of a message. -/
def content : Msg → String
  | .system c => c
  | .human c => c
  | .ai c _ => c
  | .tool c _ => c

/-- `isinstance(msg, SystemMessage)`. -/
def isSystem : Msg → Bool
  | .system _ => true
  | _ => false

/-- `isinstance(msg, ToolMessage)`. -/
def isToolMsg : Msg → Bool
  | .tool _ _ => true
  | _ => false

end Msg

/-- `isinstance(msg, AIMessage) and msg.tool_calls` (utils.py lines 130-135):
an assistant message whose `tool_calls` list is non-empty. -/
def isAiWithToolCalls : Msg → Bool
  | .ai _ tcs => !tcs.isEmpty
  | _ => false

/-- `get_message_tokens` (utils.py lines 34-42): rough token estimate,
`len(content) // 4` (`chars_per_token = 4`; the `if content else 0` guard is
the same value, since `"" // 4` would be `0`.  The `str(content)` fallback for
list-valued content does not arise in the normalized model, where content is
always a string). -/
def get_message_tokens (m : Msg) : Nat := m.content.length / 4

/-- Total estimated size of a message sequence
(`sum(get_message_tokens(msg) for msg in seq)`, utils.py line 141). -/
def seqTokens (seq : List Msg) : Nat := (seq.map get_message_tokens).sum

/-- Add one id to an id set (Python `set.add`), ignoring falsy ids.  Sets are
modelled as duplicate-free lists; only membership, emptiness and subset tests
are ever used. -/
def insertId (s : List String) (i : String) : List String :=
  if i = "" then s else if i ∈ s then s else i :: s

/-- Collect the truthy ids declared by a `tool_calls` list
(`for tool_call in message.tool_calls: if tool_call.id: ids.add(tool_call.id)`,
utils.py lines 78-80, 181-190 and 326-333; the attribute/dict duck-typing of
the source collapses to the one normalized field). -/
def addIds (tcs : List ToolCall) (s : List String) : List String :=
  tcs.foldl (fun s tc => insertId s tc.id) s

/-- The set of truthy tool-call ids an assistant message declares
(`required_tool_call_ids` / `required_ids` in utils.py). -/
def requiredIdsOf (tcs : List ToolCall) : List String := addIds tcs []

/-- The ids a message declares: `requiredIdsOf` for an assistant message,
nothing otherwise. -/
def declaredIds (m : Msg) : List String :=
  match m with
  | .ai _ tcs => requiredIdsOf tcs
  | _ => []

/-- The key set of `all_tool_messages_by_id` / `tool_messages_by_id`
(utils.py lines 165-169 and 312-316): ids of the tool messages with truthy
`tool_call_id` occurring in the list.  Only key membership is ever consulted,
so the list may contain duplicates. -/
def toolIds (l : List Msg) : List String :=
  l.foldl (fun s m =>
    match m with
    | .tool _ tcid => insertId s tcid
    | _ => s) []

/-- Close the pending sequence (`if current_sequence: sequences.append(
(current_sequence, len(pending_tool_call_ids) == 0))`, utils.py passim). -/
def closeSeq (cur : List Msg) (pending : List String) : List (List Msg × Bool) :=
  if cur.isEmpty then [] else [(cur, pending.isEmpty)]

/-- The grouping loop of utils.py lines 58-116: partition the (system-free)
message list into sequences, each tagged with its completeness flag.
`cur` is `current_sequence`, `pending` is `pending_tool_call_ids`. -/
def groupMessages : List Msg → List Msg → List String → List (List Msg × Bool)
  | [], cur, pending => closeSeq cur pending
  | m :: rest, cur, pending =>
    match m with
    | .ai c tcs =>
      if !tcs.isEmpty then
        closeSeq cur pending ++ groupMessages rest [Msg.ai c tcs] (addIds tcs [])
      else
        closeSeq cur pending ++ [([Msg.ai c tcs], true)] ++ groupMessages rest [] []
    | .tool c tcid =>
      if tcid ≠ "" ∧ tcid ∈ pending then
        groupMessages rest (cur ++ [Msg.tool c tcid]) (pending.erase tcid)
      else
        closeSeq cur pending ++ [([Msg.tool c tcid], true)] ++ groupMessages rest [] []
    | m => closeSeq cur pending ++ [([m], true)] ++ groupMessages rest [] []

/-- The backward selection loop of utils.py lines 118-158.  The argument list
is `reversed(sequences)`; `acc` is `messages_to_add` (before the final
`reverse()`), `total` is `total_tokens_approx`, `count` is `message_count`.
A sequence is skipped when it is incomplete and contains an assistant message
with tool calls, or when it contains a message above the 30000-token ceiling
and something was already accepted; otherwise it is accepted if both budgets
still hold, and scanning stops at the first refusal. -/
def selectLoop (N T : Nat) : List (List Msg × Bool) → List Msg → Nat → Nat → List Msg
  | [], acc, _, _ => acc
  | (seq, isComplete) :: rest, acc, total, count =>
    if ¬isComplete ∧ seq.any isAiWithToolCalls then
      selectLoop N T rest acc total count
    else if (seq.any fun m => get_message_tokens m > 30000) ∧ ¬acc.isEmpty then
      selectLoop N T rest acc total count
    else if count + seq.length ≤ N ∧ total + seqTokens seq ≤ T then
      selectLoop N T rest (acc ++ seq) (total + seqTokens seq) (count + seq.length)
    else
      acc

/-- Control state for the validation passes: `.normal` is the top of the outer
`while` loop; `.incl req included` is the inner loop that copies the tool
messages answering an accepted assistant message; `.skip req` is the inner
loop that discards the tool messages of a rejected assistant message. -/
inductive VMode where
  | normal : VMode
  | incl (req included : List String) : VMode
  | skip (req : List String) : VMode
deriving DecidableEq

/-- Processing of one message by the outer loop of the first validation pass
(utils.py lines 172-296), returning the emitted messages and the next control
state.  An assistant message with tool calls but no truthy ids is kept
(lines 192-197); one whose ids all have tool messages somewhere in the list is
kept and switches to the inclusion state (lines 220-226); otherwise it is
dropped and its trailing tool messages are skipped (lines 202-218).  A tool
message reached by the outer loop is dropped: both arms of the orphan branch
(lines 257-291) advance without emitting.  Anything else is kept (line 295). -/
def normStepA (allIds : List String) (m : Msg) : List Msg × VMode :=
  match m with
  | .ai c tcs =>
    if tcs.isEmpty then ([Msg.ai c tcs], .normal)
    else if (requiredIdsOf tcs).isEmpty then ([Msg.ai c tcs], .normal)
    else if (requiredIdsOf tcs).all (· ∈ allIds) then
      ([Msg.ai c tcs], .incl (requiredIdsOf tcs) [])
    else ([], .skip (requiredIdsOf tcs))
  | .tool _ _ => ([], .normal)
  | m => ([m], .normal)

/-- One step of the first validation pass in an arbitrary control state.
In the inclusion state (utils.py lines 225-252) a tool message whose id is
required and not yet included is emitted; a required duplicate is consumed
without being emitted (lines 243-246); anything else exits the inner loop and
is processed by the outer loop.  In the skip state (lines 207-217) required
tool messages are consumed; anything else exits to the outer loop. -/
def stepA (allIds : List String) (mode : VMode) (m : Msg) : List Msg × VMode :=
  match mode, m with
  | .incl req included, .tool c tcid =>
    if tcid ≠ "" ∧ tcid ∈ req then
      if tcid ∈ included then ([], .incl req included)
      else ([Msg.tool c tcid], .incl req (tcid :: included))
    else normStepA allIds (Msg.tool c tcid)
  | .incl _ _, m => normStepA allIds m
  | .skip req, .tool c tcid =>
    if tcid ≠ "" ∧ tcid ∈ req then ([], .skip req)
    else normStepA allIds (Msg.tool c tcid)
  | .skip _, m => normStepA allIds m
  | .normal, m => normStepA allIds m

/-- The first validation pass (utils.py lines 163-298): `validated_messages`
is `validateA all_ids messages_to_add .normal`, where `all_ids` is the key set
of `all_tool_messages_by_id`. -/
def validateA (allIds : List String) : List Msg → VMode → List Msg
  | [], _ => []
  | m :: rest, mode =>
    (stepA allIds mode m).1 ++ validateA allIds rest (stepA allIds mode m).2

/-- The look-ahead scan of the final safety pass (utils.py lines 341-354):
walk the messages after an assistant message, collecting the required ids
found among the contiguous tool messages, and stop at the first non-tool
message. -/
def scanFound (req : List String) : List Msg → List String
  | .tool _ tcid :: rest =>
    if tcid ≠ "" ∧ tcid ∈ req then insertId (scanFound req rest) tcid
    else scanFound req rest
  | _ => []

/-- Python `set` equality (`tool_messages_found == required_ids`,
utils.py line 357), on lists used as sets. -/
def setEqb (a b : List String) : Bool := a.all (· ∈ b) && b.all (· ∈ a)

/-- Processing of one message by the outer loop of the final safety pass
(utils.py lines 318-431).  An assistant message with tool calls is kept only
if it has at least one truthy id, all its ids are keys of
`tool_messages_by_id` (line 337: `bool(required_ids) and len(required_ids) > 0
and required_ids.issubset(...)`), and the look-ahead scan finds exactly the
required set (line 357); otherwise it is dropped and its trailing required
tool messages are skipped.  A tool message reached by the outer loop is
dropped: both arms of lines 407-427 advance without emitting.  Anything else
is kept (line 430). -/
def normStepB (allIds : List String) (m : Msg) (rest : List Msg) : List Msg × VMode :=
  match m with
  | .ai c tcs =>
    if tcs.isEmpty then ([Msg.ai c tcs], .normal)
    else if ¬(requiredIdsOf tcs).isEmpty ∧ (requiredIdsOf tcs).all (· ∈ allIds) then
      if setEqb (scanFound (requiredIdsOf tcs) rest) (requiredIdsOf tcs) then
        ([Msg.ai c tcs], .incl (requiredIdsOf tcs) [])
      else ([], .skip (requiredIdsOf tcs))
    else ([], .skip (requiredIdsOf tcs))
  | .tool _ _ => ([], .normal)
  | m => ([m], .normal)

/-- One step of the final safety pass in an arbitrary control state.  In the
inclusion state (utils.py lines 362-377) a required, not-yet-included tool
message is emitted; anything else — including a required duplicate — exits the
inner loop (line 375: `else: break`) and is processed by the outer loop.  The
skip state is as in the first pass (lines 383-392 and 397-406). -/
def stepB (allIds : List String) (mode : VMode) (m : Msg) (rest : List Msg) :
    List Msg × VMode :=
  match mode, m with
  | .incl req included, .tool c tcid =>
    if tcid ≠ "" ∧ tcid ∈ req ∧ tcid ∉ included then
      ([Msg.tool c tcid], .incl req (tcid :: included))
    else normStepB allIds (Msg.tool c tcid) rest
  | .incl _ _, m => normStepB allIds m rest
  | .skip req, .tool c tcid =>
    if tcid ≠ "" ∧ tcid ∈ req then ([], .skip req)
    else normStepB allIds (Msg.tool c tcid) rest
  | .skip _, m => normStepB allIds m rest
  | .normal, m => normStepB allIds m rest

/-- The final safety pass (utils.py lines 300-431): `final_cleaned_messages`
is `validateB ids messages_to_process .normal`, where `ids` is the key set of
`tool_messages_by_id` built over `messages_to_process`. -/
def validateB (allIds : List String) : List Msg → VMode → List Msg
  | [], _ => []
  | m :: rest, mode =>
    (stepB allIds mode m rest).1 ++ validateB allIds rest (stepB allIds mode m rest).2

/-- `[msg for msg in messages if not isinstance(msg, SystemMessage)]`
(utils.py line 53). -/
def filteredMessages (messages : List Msg) : List Msg :=
  messages.filter (fun m => !m.isSystem)

/-- `system_tokens` (utils.py line 50). -/
def systemTokensOf (sysc : Option String) : Nat :=
  match sysc with
  | some s => get_message_tokens (Msg.system s)
  | none => 0

/-- `messages_to_add` after the final `reverse()` (utils.py lines 118-161):
the flat list collected by the backward scan, reversed as a whole.  The Python
`list.reverse()` is a flat reversal, so the internal order of every
multi-message sequence is reversed as well. -/
def messagesToAdd (messages : List Msg) (sysc : Option String) (N T : Nat) : List Msg :=
  (selectLoop N T (groupMessages (filteredMessages messages) [] []).reverse []
    (systemTokensOf sysc) 0).reverse

/-- `validated_messages` (utils.py lines 163-298). -/
def validatedMessages (messages : List Msg) (sysc : Option String) (N T : Nat) : List Msg :=
  validateA (toolIds (messagesToAdd messages sysc N T)) (messagesToAdd messages sysc N T) .normal

/-- `truncate_messages` (utils.py lines 8-440).  `sysc` is the content of the
optional system message (the Python parameter is typed
`SystemMessage | None`, so a supplied system message is always a
`SystemMessage`); `N` is `max_messages`, `T` is `max_tokens_approx`.
After the first validation pass the code re-detects a leading system message
(`result[0]`, lines 305-310), runs the final safety pass on the remainder and
prepends the system message again (lines 433-440). -/
def truncate_messages (messages : List Msg) (sysc : Option String)
    (N : Nat := 20) (T : Nat := 100000) : List Msg :=
  let sysList : List Msg := (sysc.map Msg.system).toList
  if (filteredMessages messages).isEmpty then sysList
  else
    match sysList ++ validatedMessages messages sysc N T with
    | Msg.system sc :: restR => Msg.system sc :: validateB (toolIds restR) restR .normal
    | other =>
      match sysc with
      | some s => Msg.system s :: validateB (toolIds other) other .normal
      | none => validateB (toolIds other) other .normal

/-! ## Basic structural lemmas -/

/-- Each step of the first validation pass emits either nothing or exactly the
message it is looking at. -/
theorem stepA_fst (allIds : List String) (mode : VMode) (m : Msg) :
    (stepA allIds mode m).1 = [] ∨ (stepA allIds mode m).1 = [m] := by
  cases mode <;> cases m <;>
    simp only [stepA, normStepA] <;>
    first
      | (split_ifs <;> simp_all)
      | simp_all

/-- Each step of the final safety pass emits either nothing or exactly the
message it is looking at. -/
theorem stepB_fst (allIds : List String) (mode : VMode) (m : Msg) (rest : List Msg) :
    (stepB allIds mode m rest).1 = [] ∨ (stepB allIds mode m rest).1 = [m] := by
  cases mode <;> cases m <;>
    simp only [stepB, normStepB] <;>
    first
      | (split_ifs <;> simp_all)
      | simp_all

/-- The first validation pass only removes messages: its output is a sublist
(order-preserving subsequence) of its input. -/
theorem validateA_sublist (allIds : List String) :
    ∀ (l : List Msg) (mode : VMode), List.Sublist (validateA allIds l mode) l := by
  intro l
  induction l with
  | nil => intro mode; simp [validateA]
  | cons m rest ih =>
    intro mode
    rcases stepA_fst allIds mode m with h | h <;> rw [validateA, h]
    · exact (ih _).cons m
    · exact (ih _).cons₂ m

/-- The final safety pass only removes messages: its output is a sublist of
its input. -/
theorem validateB_sublist (allIds : List String) :
    ∀ (l : List Msg) (mode : VMode), List.Sublist (validateB allIds l mode) l := by
  intro l
  induction l with
  | nil => intro mode; simp [validateB]
  | cons m rest ih =>
    intro mode
    rcases stepB_fst allIds mode m rest with h | h <;> rw [validateB, h]
    · exact (ih _).cons m
    · exact (ih _).cons₂ m

theorem seqTokens_nil : seqTokens [] = 0 := rfl

theorem seqTokens_cons (m : Msg) (l : List Msg) :
    seqTokens (m :: l) = get_message_tokens m + seqTokens l := by
  simp [seqTokens]

theorem seqTokens_append (l₁ l₂ : List Msg) :
    seqTokens (l₁ ++ l₂) = seqTokens l₁ + seqTokens l₂ := by
  simp [seqTokens]

theorem seqTokens_reverse (l : List Msg) : seqTokens l.reverse = seqTokens l := by
  simp [seqTokens, List.sum_reverse]

/-- The estimated size of a sublist is at most that of the whole list. -/
theorem seqTokens_le_of_sublist {l₁ l₂ : List Msg} (h : List.Sublist l₁ l₂) :
    seqTokens l₁ ≤ seqTokens l₂ := by
  induction h with
  | slnil => exact Nat.le_refl _
  | cons a _ ih => rw [seqTokens_cons]; omega
  | cons₂ a _ ih => rw [seqTokens_cons, seqTokens_cons]; omega

/-- Every message in a sequence produced by the grouping loop comes from the
pending sequence or from the remaining input. -/
theorem groupMessages_mem :
    ∀ (msgs cur : List Msg) (pending : List String) (s : List Msg) (b : Bool),
      (s, b) ∈ groupMessages msgs cur pending → ∀ m ∈ s, m ∈ cur ∨ m ∈ msgs := by
  intro msgs
  induction msgs with
  | nil =>
    intro cur pending s b hs m hm
    simp only [groupMessages, closeSeq] at hs
    split at hs <;> simp_all
  | cons hd rest ih =>
    intro cur pending s b hs m hm
    have hclose : (s, b) ∈ closeSeq cur pending → m ∈ cur := by
      intro hmem
      simp only [closeSeq] at hmem
      split at hmem <;> simp_all
    have hemit : (s, b) ∈ closeSeq cur pending ++ [([hd], true)] ++ groupMessages rest [] [] →
        m ∈ cur ∨ m ∈ hd :: rest := by
      intro hmem
      rcases List.mem_append.1 hmem with h | h
      · rcases List.mem_append.1 h with h1 | h1
        · exact Or.inl (hclose h1)
        · simp only [List.mem_singleton, Prod.mk.injEq] at h1
          rcases h1 with ⟨rfl, _⟩
          simp only [List.mem_singleton] at hm
          subst hm
          exact Or.inr (List.mem_cons_self _ _)
      · rcases ih [] [] s b h m hm with h1 | h1
        · simp at h1
        · exact Or.inr (List.mem_cons_of_mem _ h1)
    cases hd with
    | ai c tcs =>
      simp only [groupMessages] at hs
      split at hs
      · rcases List.mem_append.1 hs with h | h
        · exact Or.inl (hclose h)
        · rcases ih _ _ s b h m hm with h1 | h1
          · simp only [List.mem_singleton] at h1
            subst h1
            exact Or.inr (List.mem_cons_self _ _)
          · exact Or.inr (List.mem_cons_of_mem _ h1)
      · exact hemit hs
    | tool c tcid =>
      simp only [groupMessages] at hs
      split at hs
      · rcases ih _ _ s b hs m hm with h1 | h1
        · rcases List.mem_append.1 h1 with h2 | h2
          · exact Or.inl h2
          · simp only [List.mem_singleton] at h2
            subst h2
            exact Or.inr (List.mem_cons_self _ _)
        · exact Or.inr (List.mem_cons_of_mem _ h1)
      · exact hemit hs
    | system c =>
      simp only [groupMessages] at hs
      exact hemit hs
    | human c =>
      simp only [groupMessages] at hs
      exact hemit hs

/-- Every message collected by the selection loop comes from the accumulator
or from one of the candidate sequences. -/
theorem selectLoop_mem (N T : Nat) :
    ∀ (gs : List (List Msg × Bool)) (acc : List Msg) (total count : Nat) (m : Msg),
      m ∈ selectLoop N T gs acc total count →
      m ∈ acc ∨ ∃ p ∈ gs, m ∈ p.1 := by
  intro gs
  induction gs with
  | nil => intro acc total count m hm; simp only [selectLoop] at hm; exact Or.inl hm
  | cons g rest ih =>
    intro acc total count m hm
    obtain ⟨seq, isComplete⟩ := g
    simp only [selectLoop] at hm
    split_ifs at hm with h1 h2 h3
    · rcases ih _ _ _ _ hm with h | ⟨p, hp, hmp⟩
      · exact Or.inl h
      · exact Or.inr ⟨p, List.mem_cons_of_mem _ hp, hmp⟩
    · rcases ih _ _ _ _ hm with h | ⟨p, hp, hmp⟩
      · exact Or.inl h
      · exact Or.inr ⟨p, List.mem_cons_of_mem _ hp, hmp⟩
    · rcases ih _ _ _ _ hm with h | ⟨p, hp, hmp⟩
      · rcases List.mem_append.1 h with h' | h'
        · exact Or.inl h'
        · exact Or.inr ⟨(seq, isComplete), List.mem_cons_self _ _, h'⟩
      · exact Or.inr ⟨p, List.mem_cons_of_mem _ hp, hmp⟩
    · exact Or.inl hm

/-- Budget invariant of the selection loop: starting from an accumulator whose
count and token total match the running tallies, the result never exceeds the
turn budget (beyond the initial accumulator) nor the token budget (beyond the
initial total). -/
theorem selectLoop_bounds (N T : Nat) (sysTok : Nat) :
    ∀ (gs : List (List Msg × Bool)) (acc : List Msg) (total count : Nat),
      count = acc.length → total = sysTok + seqTokens acc →
      (selectLoop N T gs acc total count).length ≤ max acc.length N ∧
      sysTok + seqTokens (selectLoop N T gs acc total count) ≤ max total T := by
  intro gs
  induction gs with
  | nil =>
    intro acc total count hc ht
    simp only [selectLoop]
    omega
  | cons g rest ih =>
    intro acc total count hc ht
    obtain ⟨seq, isComplete⟩ := g
    simp only [selectLoop]
    split_ifs with h1 h2 h3
    · exact ih acc total count hc ht
    · exact ih acc total count hc ht
    · have hc' : count + seq.length = (acc ++ seq).length := by
        simp only [List.length_append]
        omega
      have ht' : total + seqTokens seq = sysTok + seqTokens (acc ++ seq) := by
        rw [seqTokens_append]; omega
      have := ih (acc ++ seq) (total + seqTokens seq) (count + seq.length) hc' ht'
      constructor
      · calc (selectLoop N T rest (acc ++ seq) _ _).length
            ≤ max (acc ++ seq).length N := this.1
          _ ≤ max acc.length N := by
              simp only [List.length_append]
              omega
      · calc sysTok + seqTokens (selectLoop N T rest (acc ++ seq) _ _)
            ≤ max (total + seqTokens seq) T := this.2
          _ ≤ max total T := by omega
    · constructor
      · omega
      · omega

/-! ## Assembling the pipeline -/

/-- When a system message is supplied and the filtered history is non-empty,
the output is the system message followed by the final safety pass over the
first pass's output. -/
theorem truncate_eq_of_some (messages : List Msg) (s : String) (N T : Nat)
    (h : ¬(filteredMessages messages).isEmpty) :
    truncate_messages messages (some s) N T =
      Msg.system s :: validateB (toolIds (validatedMessages messages (some s) N T))
        (validatedMessages messages (some s) N T) .normal := by
  simp only [truncate_messages, h]
  rfl

/-- When a system message is supplied and the filtered history is empty, the
output is just the system message. -/
theorem truncate_eq_of_some_empty (messages : List Msg) (s : String) (N T : Nat)
    (h : (filteredMessages messages).isEmpty) :
    truncate_messages messages (some s) N T = [Msg.system s] := by
  simp only [truncate_messages, h]
  rfl

/-- Everything the selection stage emits comes from the filtered input. -/
theorem mem_messagesToAdd (messages : List Msg) (sysc : Option String) (N T : Nat)
    (m : Msg) (hm : m ∈ messagesToAdd messages sysc N T) :
    m ∈ filteredMessages messages := by
  rw [messagesToAdd, List.mem_reverse] at hm
  rcases selectLoop_mem N T _ _ _ _ m hm with h | ⟨p, hp, hmp⟩
  · simp at h
  · rw [List.mem_reverse] at hp
    rcases groupMessages_mem _ _ _ _ _ hp m hmp with h | h
    · simp at h
    · exact h

/-- Everything the first validation pass emits comes from the filtered
input. -/
theorem mem_validatedMessages (messages : List Msg) (sysc : Option String) (N T : Nat)
    (m : Msg) (hm : m ∈ validatedMessages messages sysc N T) :
    m ∈ filteredMessages messages := by
  rw [validatedMessages] at hm
  exact mem_messagesToAdd messages sysc N T m ((validateA_sublist _ _ _).subset hm)

/-- Messages surviving the filter are not system messages. -/
theorem not_system_of_mem_filtered (messages : List Msg) (m : Msg)
    (hm : m ∈ filteredMessages messages) : m.isSystem = false := by
  rw [filteredMessages] at hm
  have := (List.mem_filter.1 hm).2
  simpa using this

/-- Turn-count and token bounds for the first validation pass's output. -/
theorem validatedMessages_bounds (messages : List Msg) (sysc : Option String) (N T : Nat) :
    (validatedMessages messages sysc N T).length ≤ N ∧
    seqTokens (validatedMessages messages sysc N T) ≤ T := by
  have hsel := selectLoop_bounds N T (systemTokensOf sysc)
    (groupMessages (filteredMessages messages) [] []).reverse [] (systemTokensOf sysc) 0
    rfl (by simp [seqTokens])
  have hsub := validateA_sublist (toolIds (messagesToAdd messages sysc N T))
    (messagesToAdd messages sysc N T) .normal
  have hlen : (messagesToAdd messages sysc N T).length ≤ N := by
    rw [messagesToAdd, List.length_reverse]
    have := hsel.1
    simp only [List.length_nil] at this
    omega
  have htok : seqTokens (messagesToAdd messages sysc N T) ≤ T := by
    rw [messagesToAdd, seqTokens_reverse]
    have := hsel.2
    omega
  constructor
  · calc (validatedMessages messages sysc N T).length
        ≤ (messagesToAdd messages sysc N T).length := hsub.length_le
      _ ≤ N := hlen
  · calc seqTokens (validatedMessages messages sysc N T)
        ≤ seqTokens (messagesToAdd messages sysc N T) := seqTokens_le_of_sublist hsub
      _ ≤ T := htok

/-- With no system message and a non-empty filtered history, the output is
the final safety pass applied to the first pass's output, with the
re-detected leading system message (if any) peeled off and put back. -/
theorem truncate_eq_of_none (messages : List Msg) (N T : Nat)
    (h : ¬(filteredMessages messages).isEmpty) :
    truncate_messages messages none N T =
      (match validatedMessages messages none N T with
       | Msg.system sc :: restR => Msg.system sc :: validateB (toolIds restR) restR .normal
       | other => validateB (toolIds other) other .normal) := by
  simp only [truncate_messages, h]
  rfl

/-- Claim C5: for every input and budgets, the output of `truncate_messages`
past the optional leading system message contains at most `max_messages`
turns, and its total approximate size (the length-divided-by-4 estimate) is at
most `max_tokens_approx`.  The bounds hold unconditionally — the
always-included first group is still subject to both budget checks, so no
exception is needed. -/
theorem C5_budget_respect (messages : List Msg) (sysc : Option String) (N T : Nat) :
    ((truncate_messages messages sysc N T).drop (if sysc.isSome then 1 else 0)).length ≤ N ∧
    seqTokens ((truncate_messages messages sysc N T).drop (if sysc.isSome then 1 else 0)) ≤ T := by
  have hbounds := validatedMessages_bounds messages sysc N T
  cases sysc with
  | some s =>
    have hdrop : (if (some s).isSome then 1 else 0) = 1 := rfl
    rw [hdrop]
    by_cases h : (filteredMessages messages).isEmpty
    · rw [truncate_eq_of_some_empty messages s N T h]
      simp [seqTokens]
    · rw [truncate_eq_of_some messages s N T h]
      have hsub := validateB_sublist (toolIds (validatedMessages messages (some s) N T))
        (validatedMessages messages (some s) N T) .normal
      constructor
      · simpa using le_trans hsub.length_le hbounds.1
      · simpa using le_trans (seqTokens_le_of_sublist hsub) hbounds.2
  | none =>
    have hdrop : (if (none : Option String).isSome then 1 else 0) = 0 := rfl
    rw [hdrop]
    simp only [List.drop_zero]
    by_cases h : (filteredMessages messages).isEmpty
    · simp [truncate_messages, h, seqTokens]
    · rw [truncate_eq_of_none messages N T h]
      rcases hv : validatedMessages messages none N T with _ | ⟨m, restV⟩
      all_goals rw [hv] at hbounds
      · simp [validateB, seqTokens]
      · cases m with
        | system sc =>
          have hsub := validateB_sublist (toolIds restV) restV .normal
          have := hsub.length_le
          have := seqTokens_le_of_sublist hsub
          simp only [List.length_cons, seqTokens_cons] at hbounds
          constructor
          · simp only [List.length_cons]
            omega
          · rw [seqTokens_cons]
            omega
        | human c =>
          have hsub := validateB_sublist (toolIds (Msg.human c :: restV))
            (Msg.human c :: restV) .normal
          exact ⟨le_trans hsub.length_le hbounds.1,
            le_trans (seqTokens_le_of_sublist hsub) hbounds.2⟩
        | ai c tcs =>
          have hsub := validateB_sublist (toolIds (Msg.ai c tcs :: restV))
            (Msg.ai c tcs :: restV) .normal
          exact ⟨le_trans hsub.length_le hbounds.1,
            le_trans (seqTokens_le_of_sublist hsub) hbounds.2⟩
        | tool c tcid =>
          have hsub := validateB_sublist (toolIds (Msg.tool c tcid :: restV))
            (Msg.tool c tcid :: restV) .normal
          exact ⟨le_trans hsub.length_le hbounds.1,
            le_trans (seqTokens_le_of_sublist hsub) hbounds.2⟩

/-- Claim C8: when a system message is supplied, the first element of the
output is exactly that system message, and nothing after it is a system
message (system messages from the input history never survive the filter),
even when every other turn has been removed. -/
theorem C8_system_message_kept (messages : List Msg) (s : String) (N T : Nat) :
    (truncate_messages messages (some s) N T).head? = some (Msg.system s) ∧
    ∀ m ∈ (truncate_messages messages (some s) N T).drop 1, m.isSystem = false := by
  by_cases h : (filteredMessages messages).isEmpty
  · rw [truncate_eq_of_some_empty messages s N T h]
    constructor
    · rfl
    · intro m hm
      simp at hm
  · rw [truncate_eq_of_some messages s N T h]
    constructor
    · rfl
    · intro m hm
      simp only [List.drop_succ_cons, List.drop_zero] at hm
      have hmem : m ∈ validatedMessages messages (some s) N T :=
        (validateB_sublist _ _ _).subset hm
      exact not_system_of_mem_filtered messages m
        (mem_validatedMessages messages (some s) N T m hmem)

/-! ## Simple (non-tool-calling) histories: claim C6 -/

/-- A simple turn: a user message, or an assistant message with no tool
calls. -/
def isSimpleTurn (m : Msg) : Prop :=
  (∃ c, m = Msg.human c) ∨ (∃ c, m = Msg.ai c [])

/-- Grouping a history of simple turns produces one complete singleton
sequence per turn. -/
theorem groupMessages_simple :
    ∀ (msgs : List Msg), (∀ m ∈ msgs, isSimpleTurn m) →
      groupMessages msgs [] [] = msgs.map (fun m => ([m], true)) := by
  intro msgs
  induction msgs with
  | nil => intro _; rfl
  | cons hd rest ih =>
    intro hs
    have hhd := hs hd (List.mem_cons_self _ _)
    have hrest : ∀ m ∈ rest, isSimpleTurn m := fun m hm => hs m (List.mem_cons_of_mem _ hm)
    rcases hhd with ⟨c, rfl⟩ | ⟨c, rfl⟩
    · simp only [groupMessages, closeSeq, List.isEmpty_nil, if_pos, List.map_cons]
      rw [ih hrest]
      rfl
    · simp only [groupMessages, List.isEmpty_nil, Bool.not_true, List.map_cons]
      rw [ih hrest]
      rfl

/-- On complete singleton sequences of small turns fitting the token budget,
the selection loop takes exactly as many of the most recent turns as the turn
budget allows. -/
theorem selectLoop_singletons (N T : Nat) :
    ∀ (rs acc : List Msg) (total count : Nat),
      (∀ m ∈ rs, get_message_tokens m ≤ 30000) →
      total + seqTokens rs ≤ T →
      selectLoop N T (rs.map (fun m => ([m], true))) acc total count =
        acc ++ rs.take (N - count) := by
  intro rs
  induction rs with
  | nil => intro acc total count _ _; simp [selectLoop]
  | cons m rest ih =>
    intro acc total count hceil hbud
    have hm := hceil m (List.mem_cons_self _ _)
    have hrest : ∀ x ∈ rest, get_message_tokens x ≤ 30000 :=
      fun x hx => hceil x (List.mem_cons_of_mem _ hx)
    rw [seqTokens_cons] at hbud
    simp only [List.map_cons, selectLoop]
    rw [if_neg (by simp)]
    rw [if_neg (by
      intro hcon
      rcases hcon with ⟨h1, _⟩
      simp only [List.any_cons, List.any_nil, Bool.or_false] at h1
      have : get_message_tokens m > 30000 := by
        simpa using h1
      omega)]
    by_cases hcount : count + 1 ≤ N
    · rw [if_pos ⟨by simpa using hcount, by rw [seqTokens_cons, seqTokens_nil]; omega⟩]
      simp only [List.length_cons, List.length_nil, Nat.zero_add]
      rw [ih (acc ++ [m]) (total + seqTokens [m]) (count + 1) hrest
        (by rw [seqTokens_cons, seqTokens_nil]; omega)]
      have htake : (m :: rest).take (N - count) = m :: rest.take (N - (count + 1)) := by
        have : N - count = (N - (count + 1)) + 1 := by omega
        rw [this, List.take_succ_cons]
      rw [htake, List.append_assoc]
      rfl
    · rw [if_neg (by
        intro hcon
        have := hcon.1
        simp only [List.length_cons, List.length_nil] at this
        omega)]
      have : N - count = 0 := by omega
      rw [this, List.take_zero, List.append_nil]

/-- The first validation pass keeps every message of a simple history. -/
theorem validateA_simple (allIds : List String) :
    ∀ (l : List Msg), (∀ m ∈ l, isSimpleTurn m) →
      validateA allIds l .normal = l := by
  intro l
  induction l with
  | nil => intro _; rfl
  | cons hd rest ih =>
    intro hs
    have hhd := hs hd (List.mem_cons_self _ _)
    have hrest : ∀ m ∈ rest, isSimpleTurn m := fun m hm => hs m (List.mem_cons_of_mem _ hm)
    rcases hhd with ⟨c, rfl⟩ | ⟨c, rfl⟩ <;>
      simp [validateA, stepA, normStepA, ih hrest]

/-- The final safety pass keeps every message of a simple history. -/
theorem validateB_simple (allIds : List String) :
    ∀ (l : List Msg), (∀ m ∈ l, isSimpleTurn m) →
      validateB allIds l .normal = l := by
  intro l
  induction l with
  | nil => intro _; rfl
  | cons hd rest ih =>
    intro hs
    have hhd := hs hd (List.mem_cons_self _ _)
    have hrest : ∀ m ∈ rest, isSimpleTurn m := fun m hm => hs m (List.mem_cons_of_mem _ hm)
    rcases hhd with ⟨c, rfl⟩ | ⟨c, rfl⟩ <;>
      simp [validateB, stepB, normStepB, ih hrest]

/-- Claim C6: on a history of simple user/assistant turns, each within the
per-turn ceiling and with total size (system message included) within the
size budget, and a turn budget `N` smaller than the history length,
`truncate_messages` returns exactly the `N` most recent turns preceded by the
system turn, in chronological order.  In particular, once the `(N+1)`-st most
recent turn is refused for budget, no older turn appears (no gap-filling past
a refusal). -/
theorem C6_recent_simple_turns (msgs : List Msg) (s : String) (N T : Nat)
    (hsimple : ∀ m ∈ msgs, isSimpleTurn m)
    (hceil : ∀ m ∈ msgs, get_message_tokens m ≤ 30000)
    (hbudget : systemTokensOf (some s) + seqTokens msgs ≤ T)
    (hN : N < msgs.length) :
    truncate_messages msgs (some s) N T =
      Msg.system s :: msgs.drop (msgs.length - N) := by
  have hfilter : filteredMessages msgs = msgs := by
    rw [filteredMessages, List.filter_eq_self]
    intro m hm
    rcases hsimple m hm with ⟨c, rfl⟩ | ⟨c, rfl⟩ <;> simp [Msg.isSystem]
  have hne : ¬(filteredMessages msgs).isEmpty := by
    rw [hfilter]
    cases msgs with
    | nil => simp at hN
    | cons a l => simp
  have hgroups : groupMessages (filteredMessages msgs) [] []
      = msgs.map (fun m => ([m], true)) := by
    rw [hfilter]; exact groupMessages_simple msgs hsimple
  have hsel : messagesToAdd msgs (some s) N T = msgs.drop (msgs.length - N) := by
    rw [messagesToAdd, hgroups, ← List.map_reverse]
    rw [selectLoop_singletons N T msgs.reverse [] (systemTokensOf (some s)) 0
      (by intro m hm; exact hceil m (List.mem_reverse.1 hm))
      (by rw [seqTokens_reverse]; omega)]
    rw [List.nil_append, Nat.sub_zero, List.take_reverse, List.reverse_reverse]
  have hdropsimple : ∀ m ∈ msgs.drop (msgs.length - N), isSimpleTurn m :=
    fun m hm => hsimple m (List.mem_of_mem_drop hm)
  have hvalid : validatedMessages msgs (some s) N T = msgs.drop (msgs.length - N) := by
    rw [validatedMessages, hsel]
    exact validateA_simple _ _ hdropsimple
  rw [truncate_eq_of_some msgs s N T hne, hvalid]
  rw [validateB_simple _ _ hdropsimple]

/-! ## Oversized single turns: claim C2 -/

/-- A concrete content of 120004 characters; its token estimate is
`120004 / 4 = 30001`, just above the 30000-unit per-turn ceiling. -/
def bigS : String := String.mk (List.replicate 120004 'a')

theorem bigS_length : bigS.length = 120004 := by
  have h : bigS.length = (List.replicate 120004 'a').length := rfl
  rw [h, List.length_replicate]

theorem get_message_tokens_human (c : String) :
    get_message_tokens (Msg.human c) = c.length / 4 := rfl

theorem bigS_tokens : get_message_tokens (Msg.human bigS) = 30001 := by
  rw [get_message_tokens_human, bigS_length]

/-- A single user turn is accepted — even above the per-turn ceiling, since
the accumulator is still empty — whenever the turn budget admits one turn and
the token budget admits the system message plus the turn. -/
theorem truncate_single_human_accept (c s : String) (N T : Nat) (hN : 1 ≤ N)
    (hT : systemTokensOf (some s) + get_message_tokens (Msg.human c) ≤ T) :
    truncate_messages [Msg.human c] (some s) N T = [Msg.system s, Msg.human c] := by
  have hsimple : ∀ m ∈ [Msg.human c], isSimpleTurn m := by
    intro m hm
    simp only [List.mem_singleton] at hm
    exact hm ▸ Or.inl ⟨c, rfl⟩
  have hne : ¬(filteredMessages [Msg.human c]).isEmpty := by
    simp [filteredMessages, Msg.isSystem]
  have hsel : messagesToAdd [Msg.human c] (some s) N T = [Msg.human c] := by
    rw [messagesToAdd]
    have hg : (groupMessages (filteredMessages [Msg.human c]) [] []).reverse
        = [([Msg.human c], true)] := rfl
    rw [hg]
    simp only [selectLoop]
    rw [if_neg (by simp), if_neg (by simp)]
    rw [if_pos ⟨by simp; omega, by rw [seqTokens_cons, seqTokens_nil]; omega⟩]
    simp [selectLoop]
  have hvalid : validatedMessages [Msg.human c] (some s) N T = [Msg.human c] := by
    rw [validatedMessages, hsel]
    exact validateA_simple _ _ hsimple
  rw [truncate_eq_of_some _ s N T hne, hvalid, validateB_simple _ _ hsimple]

/-- A single user turn is rejected — and the output left with only the system
turn — whenever the system message plus the turn exceed the token budget;
the budget check applies even to the very first candidate group. -/
theorem truncate_single_human_reject (c s : String) (N T : Nat)
    (hT : T < systemTokensOf (some s) + get_message_tokens (Msg.human c)) :
    truncate_messages [Msg.human c] (some s) N T = [Msg.system s] := by
  have hne : ¬(filteredMessages [Msg.human c]).isEmpty := by
    simp [filteredMessages, Msg.isSystem]
  have hsel : messagesToAdd [Msg.human c] (some s) N T = [] := by
    rw [messagesToAdd]
    have hg : (groupMessages (filteredMessages [Msg.human c]) [] []).reverse
        = [([Msg.human c], true)] := rfl
    rw [hg]
    simp only [selectLoop]
    rw [if_neg (by simp), if_neg (by simp)]
    rw [if_neg (by
      intro hcon
      have := hcon.2
      rw [seqTokens_cons, seqTokens_nil] at this
      omega)]
    rfl
  have hvalid : validatedMessages [Msg.human c] (some s) N T = [] := by
    rw [validatedMessages, hsel]
    rfl
  rw [truncate_eq_of_some _ s N T hne, hvalid]
  rfl

/-- Claim C2 (counterexample): a complete group made of one turn above the
per-turn ceiling, the only group available, is *not* included when it exceeds
the overall token budget — the output is left with only the system turn,
contradicting the claim that such a group is always accepted. -/
theorem C2_oversized_group_counterexample :
    30000 < get_message_tokens (Msg.human bigS) ∧
    truncate_messages [Msg.human bigS] (some "") 20 1000 = [Msg.system ""] ∧
    Msg.human bigS ∉ truncate_messages [Msg.human bigS] (some "") 20 1000 := by
  have htok := bigS_tokens
  have hsys : systemTokensOf (some "") = 0 := rfl
  have hrej : truncate_messages [Msg.human bigS] (some "") 20 1000 = [Msg.system ""] :=
    truncate_single_human_reject bigS "" 20 1000 (by omega)
  refine ⟨by omega, hrej, ?_⟩
  rw [hrej]
  simp

/-- Claim C2 (amended): when a single turn exceeds the 30000-unit per-turn
ceiling and the accumulator is still empty, the ceiling is indeed bypassed —
but the group remains subject to the turn-count and total-token budget
checks; it is included exactly when those pass. -/
theorem C2_oversized_group_amended (c s : String) (N T : Nat)
    (_hbig : 30000 < get_message_tokens (Msg.human c))
    (hN : 1 ≤ N)
    (hT : systemTokensOf (some s) + get_message_tokens (Msg.human c) ≤ T) :
    truncate_messages [Msg.human c] (some s) N T = [Msg.system s, Msg.human c] :=
  truncate_single_human_accept c s N T hN hT

theorem C2_oversized_group_amended_witness :
    30000 < get_message_tokens (Msg.human bigS) ∧ 1 ≤ 20 ∧
    systemTokensOf (some "") + get_message_tokens (Msg.human bigS) ≤ 100000 ∧
    truncate_messages [Msg.human bigS] (some "") 20 100000
      = [Msg.system "", Msg.human bigS] := by
  have htok := bigS_tokens
  have hsys : systemTokensOf (some "") = 0 := rfl
  exact ⟨by omega, by norm_num, by omega,
    C2_oversized_group_amended bigS "" 20 100000 (by omega) (by norm_num) (by omega)⟩

/-! ## Assistant messages with tool calls but no ids: claim C3 -/

/-- An assistant message with a non-empty `tool_calls` list yielding no
truthy ids is never emitted by the final safety pass: line 337 of utils.py
(`bool(required_ids) and ...`) evaluates to false on an empty id set, so the
message is dropped. -/
theorem stepB_ai_no_ids (allIds : List String) (c : String) (tcs : List ToolCall)
    (hne : tcs ≠ []) (hids : requiredIdsOf tcs = []) (mode : VMode) (rest : List Msg) :
    (stepB allIds mode (Msg.ai c tcs) rest).1 = [] := by
  have h1 : tcs.isEmpty = false := by
    cases tcs with
    | nil => exact absurd rfl hne
    | cons a l => rfl
  have h2 : (requiredIdsOf tcs).isEmpty = true := by rw [hids]; rfl
  cases mode <;> simp [stepB, normStepB, h1, h2]

theorem validateB_no_ids_ai (allIds : List String) (c : String) (tcs : List ToolCall)
    (hne : tcs ≠ []) (hids : requiredIdsOf tcs = []) :
    ∀ (l : List Msg) (mode : VMode), Msg.ai c tcs ∉ validateB allIds l mode := by
  intro l
  induction l with
  | nil => intro mode; simp [validateB]
  | cons m rest ih =>
    intro mode hmem
    rw [validateB] at hmem
    rcases List.mem_append.1 hmem with h | h
    · rcases stepB_fst allIds mode m rest with hout | hout
      · rw [hout] at h; simp at h
      · rw [hout] at h
        simp only [List.mem_singleton] at h
        subst h
        have := stepB_ai_no_ids allIds c tcs hne hids mode rest
        rw [this] at hout
        simp at hout
    · exact ih _ h

/-- Claim C3 (amended): an assistant message whose non-empty `tool_calls`
list yields no tool-call ids is treated as a complete group by grouping and
selection and survives the first validation pass, but the final safety pass
always drops it: it never appears in the output of `truncate_messages`. -/
theorem C3_no_id_assistant_amended (messages : List Msg) (sysc : Option String)
    (N T : Nat) (c : String) (tcs : List ToolCall)
    (hne : tcs ≠ []) (hids : requiredIdsOf tcs = []) :
    Msg.ai c tcs ∉ truncate_messages messages sysc N T := by
  intro hmem
  by_cases h : (filteredMessages messages).isEmpty
  · cases sysc with
    | some s =>
      rw [truncate_eq_of_some_empty messages s N T h] at hmem
      simp at hmem
    | none =>
      simp only [truncate_messages, h, if_pos] at hmem
      simp at hmem
  · cases sysc with
    | some s =>
      rw [truncate_eq_of_some messages s N T h] at hmem
      rcases List.mem_cons.1 hmem with heq | hmem'
      · exact Msg.noConfusion heq
      · exact validateB_no_ids_ai _ c tcs hne hids _ _ hmem'
    | none =>
      rw [truncate_eq_of_none messages N T h] at hmem
      rcases hv : validatedMessages messages none N T with _ | ⟨m, restV⟩ <;> rw [hv] at hmem
      · simp [validateB] at hmem
      · cases m with
        | system sc =>
          rcases List.mem_cons.1 hmem with heq | hmem'
          · exact Msg.noConfusion heq
          · exact validateB_no_ids_ai _ c tcs hne hids _ _ hmem'
        | human c2 => exact validateB_no_ids_ai _ c tcs hne hids _ _ hmem
        | ai c2 tcs2 => exact validateB_no_ids_ai _ c tcs hne hids _ _ hmem
        | tool c2 i2 => exact validateB_no_ids_ai _ c tcs hne hids _ _ hmem

theorem C3_no_id_assistant_amended_witness :
    Msg.ai "x" [⟨"", "f", "q"⟩] ∉
      truncate_messages [Msg.human "hi", Msg.ai "x" [⟨"", "f", "q"⟩]] (some "s") 20 100000 :=
  C3_no_id_assistant_amended [Msg.human "hi", Msg.ai "x" [⟨"", "f", "q"⟩]] (some "s")
    20 100000 "x" [⟨"", "f", "q"⟩] (by decide) (by decide)

/-- Claim C3 (counterexample): an assistant message with tool calls but no
ids, well within every budget, is dropped from the output — the claim says it
is kept. -/
theorem C3_no_id_assistant_counterexample :
    truncate_messages [Msg.human "hi", Msg.ai "x" [⟨"", "f", "q"⟩]] (some "s") 20 100000
      = [Msg.system "s", Msg.human "hi"] ∧
    Msg.ai "x" [⟨"", "f", "q"⟩] ∉
      truncate_messages [Msg.human "hi", Msg.ai "x" [⟨"", "f", "q"⟩]] (some "s") 20 100000 := by
  decide

/-! ## Duplicate tool results: claim C4 -/

/-- Claim C4 (counterexample): with an assistant message declaring `t1` and
two consecutive tool results for `t1`, the duplicate is *not* retained in the
assistant's group — grouping closes the group at the duplicate and emits the
duplicate as its own singleton group — and the final output keeps only one
tool result (here the later duplicate, not the first), so the two results are
never retained together. -/
theorem C4_duplicate_results_counterexample :
    groupMessages [Msg.ai "a" [⟨"t1", "f", "q"⟩], Msg.tool "r1" "t1", Msg.tool "r2" "t1"] [] []
      = [([Msg.ai "a" [⟨"t1", "f", "q"⟩], Msg.tool "r1" "t1"], true),
         ([Msg.tool "r2" "t1"], true)] ∧
    truncate_messages [Msg.ai "a" [⟨"t1", "f", "q"⟩], Msg.tool "r1" "t1", Msg.tool "r2" "t1"]
        (some "s") 20 100000
      = [Msg.system "s", Msg.ai "a" [⟨"t1", "f", "q"⟩], Msg.tool "r2" "t1"] ∧
    Msg.tool "r1" "t1" ∉
      truncate_messages [Msg.ai "a" [⟨"t1", "f", "q"⟩], Msg.tool "r1" "t1", Msg.tool "r2" "t1"]
        (some "s") 20 100000 := by
  decide

/-- Claim C4 (amended): only the first consecutive tool result for an id
counts toward the group's completeness; a later consecutive duplicate does
not re-trigger matching but is *not* retained in that group — the grouping
stage closes the (complete) group and emits the duplicate as its own
singleton group. -/
theorem C4_duplicate_results_amended (ca n a c1 c2 t : String) (ht : t ≠ "") :
    groupMessages [Msg.ai ca [⟨t, n, a⟩], Msg.tool c1 t, Msg.tool c2 t] [] []
      = [([Msg.ai ca [⟨t, n, a⟩], Msg.tool c1 t], true), ([Msg.tool c2 t], true)] := by
  have hadd : addIds [⟨t, n, a⟩] [] = [t] := by
    simp [addIds, insertId, ht]
  simp [groupMessages, closeSeq, hadd, ht]

theorem C4_duplicate_results_amended_witness :
    groupMessages [Msg.ai "a" [⟨"t1", "f", "q"⟩], Msg.tool "r1" "t1", Msg.tool "r2" "t1"] [] []
      = [([Msg.ai "a" [⟨"t1", "f", "q"⟩], Msg.tool "r1" "t1"], true),
         ([Msg.tool "r2" "t1"], true)] :=
  C4_duplicate_results_amended "a" "f" "q" "r1" "r2" "t1" (by decide)

/-! ## Idempotence: claim C7 -/

/-- Claim C7 (refuted, code bug): `truncate_messages` is not idempotent.
With two assistant messages sharing tool-call id `"t"`, the first application
yields `[system, ai "A", tool "rb"]` — the flat `reverse()` of utils.py line
161 scrambles group-internal order and validation then pairs the first
assistant message with the *other* group's tool result — and the second
application collapses this to `[system]`, because the surviving pair is again
scrambled and dropped. -/
theorem C7_not_idempotent :
    truncate_messages
        (truncate_messages [Msg.ai "A" [⟨"t", "f", "x"⟩], Msg.tool "ra" "t",
          Msg.ai "B" [⟨"t", "f", "x"⟩], Msg.tool "rb" "t"] (some "s") 20 100000)
        (some "s") 20 100000
      ≠ truncate_messages [Msg.ai "A" [⟨"t", "f", "x"⟩], Msg.tool "ra" "t",
          Msg.ai "B" [⟨"t", "f", "x"⟩], Msg.tool "rb" "t"] (some "s") 20 100000 := by
  decide

/-! ## Output as a subsequence of the input: claim C10 -/

/-- Claim C10 (refuted, code bug): the non-system part of the output is not
always an order-preserving subsequence of the input.  With two assistant
messages sharing the ids `t1, t2`, the output is
`[system, ai "A", tool "rb2", tool "rb1"]`: the flat `reverse()` of utils.py
line 161 reverses the order of the second group's tool results, so `rb2`
precedes `rb1` in the output although `rb1` precedes `rb2` in the input. -/
theorem C10_not_subsequence :
    truncate_messages
        [Msg.ai "A" [⟨"t1", "f", "x"⟩, ⟨"t2", "f", "y"⟩], Msg.tool "ra1" "t1",
         Msg.tool "ra2" "t2", Msg.ai "B" [⟨"t1", "f", "x"⟩, ⟨"t2", "f", "y"⟩],
         Msg.tool "rb1" "t1", Msg.tool "rb2" "t2"] (some "s") 20 100000
      = [Msg.system "s", Msg.ai "A" [⟨"t1", "f", "x"⟩, ⟨"t2", "f", "y"⟩],
         Msg.tool "rb2" "t2", Msg.tool "rb1" "t1"] ∧
    ¬ List.Sublist
        ((truncate_messages
          [Msg.ai "A" [⟨"t1", "f", "x"⟩, ⟨"t2", "f", "y"⟩], Msg.tool "ra1" "t1",
           Msg.tool "ra2" "t2", Msg.ai "B" [⟨"t1", "f", "x"⟩, ⟨"t2", "f", "y"⟩],
           Msg.tool "rb1" "t1", Msg.tool "rb2" "t2"] (some "s") 20 100000).drop 1)
        [Msg.ai "A" [⟨"t1", "f", "x"⟩, ⟨"t2", "f", "y"⟩], Msg.tool "ra1" "t1",
         Msg.tool "ra2" "t2", Msg.ai "B" [⟨"t1", "f", "x"⟩, ⟨"t2", "f", "y"⟩],
         Msg.tool "rb1" "t1", Msg.tool "rb2" "t2"] := by
  decide

theorem C6_recent_simple_turns_witness :
    truncate_messages [Msg.human "aa", Msg.human "bb", Msg.human "cc"] (some "s") 2 100000
      = Msg.system "s" :: [Msg.human "aa", Msg.human "bb", Msg.human "cc"].drop
          ([Msg.human "aa", Msg.human "bb", Msg.human "cc"].length - 2) :=
  C6_recent_simple_turns [Msg.human "aa", Msg.human "bb", Msg.human "cc"] "s" 2 100000
    (by
      intro m hm
      simp only [List.mem_cons, List.not_mem_nil, or_false] at hm
      rcases hm with rfl | rfl | rfl
      · exact Or.inl ⟨"aa", rfl⟩
      · exact Or.inl ⟨"bb", rfl⟩
      · exact Or.inl ⟨"cc", rfl⟩)
    (by
      intro m hm
      simp only [List.mem_cons, List.not_mem_nil, or_false] at hm
      rcases hm with rfl | rfl | rfl <;> decide)
    (by decide)
    (by decide)

theorem C8_system_message_kept_witness :
    (truncate_messages [Msg.human "hi"] (some "s") 20 100000).head?
      = some (Msg.system "s") ∧
    (Msg.human "hi").isSystem = false :=
  ⟨(C8_system_message_kept [Msg.human "hi"] "s" 20 100000).1,
   (C8_system_message_kept [Msg.human "hi"] "s" 20 100000).2 (Msg.human "hi") (by decide)⟩

/-! ## Tool-call atomicity: claim C1

The proof proceeds in two steps.  `Blocky` describes the shape of the first
validation pass's output: tool messages occur only in a contiguous run
immediately after an assistant message that declares their (pairwise
distinct, truthy) ids.  `Valid` describes the shape of the final safety
pass's output on a `Blocky` input: every assistant message with declared ids
heads a block whose tool run covers *all* of its ids, and tool messages occur
only inside such blocks.  Atomicity is then read off from `Valid`. -/

/-- The `tool_call_id`s of the tool messages of a list, in order. -/
def toolIdList (l : List Msg) : List String :=
  l.filterMap (fun m =>
    match m with
    | .tool _ i => some i
    | _ => none)

theorem toolIdList_nil : toolIdList [] = [] := rfl

theorem toolIdList_cons_tool (rc i : String) (l : List Msg) :
    toolIdList (Msg.tool rc i :: l) = i :: toolIdList l := rfl

theorem mem_toolIdList {x : String} {l : List Msg} :
    x ∈ toolIdList l ↔ ∃ rc, Msg.tool rc x ∈ l := by
  rw [toolIdList, List.mem_filterMap]
  constructor
  · rintro ⟨m, hm, hf⟩
    cases m with
    | tool rc i =>
      simp only [Option.some.injEq] at hf
      exact ⟨rc, hf ▸ hm⟩
    | system c => simp at hf
    | human c => simp at hf
    | ai c tcs => simp at hf
  · rintro ⟨rc, hm⟩
    exact ⟨Msg.tool rc x, hm, rfl⟩

theorem mem_insertId {x : String} {s : List String} {i : String} :
    x ∈ insertId s i ↔ x ∈ s ∨ (i ≠ "" ∧ x = i) := by
  rw [insertId]
  split_ifs with h1 h2
  · simp [h1]
  · constructor
    · exact fun h => Or.inl h
    · rintro (h | ⟨hne, rfl⟩)
      · exact h
      · exact h2
  · constructor
    · intro h
      rcases List.mem_cons.1 h with rfl | h'
      · exact Or.inr ⟨h1, rfl⟩
      · exact Or.inl h'
    · rintro (h | ⟨hne, rfl⟩)
      · exact List.mem_cons_of_mem _ h
      · exact List.mem_cons_self _ _

/-- The head of the list is not a tool message. -/
def headNotTool : List Msg → Prop
  | Msg.tool _ _ :: _ => False
  | _ => True

/-- Shape of the first validation pass's output: every tool message sits in a
contiguous run right after an assistant message declaring its id, with the
run's ids pairwise distinct and truthy. -/
inductive Blocky : List Msg → Prop
  | nil : Blocky []
  | simple (m : Msg) (rest : List Msg) :
      m.isToolMsg = false → Blocky rest → Blocky (m :: rest)
  | block (c : String) (tcs : List ToolCall) (tools rest : List Msg) :
      (∀ t ∈ tools, ∃ rc i, t = Msg.tool rc i ∧ i ≠ "" ∧ i ∈ requiredIdsOf tcs) →
      (toolIdList tools).Nodup →
      Blocky rest →
      Blocky (Msg.ai c tcs :: (tools ++ rest))

/-- Intermediate states of the first pass's inclusion loop: the output is a
run of tool messages with fresh required ids, followed by a `Blocky` tail. -/
inductive BCont (req : List String) : List String → List Msg → Prop
  | exit (included : List String) (out : List Msg) :
      Blocky out → BCont req included out
  | cons (included : List String) (rc i : String) (out : List Msg) :
      i ≠ "" → i ∈ req → i ∉ included →
      BCont req (i :: included) out →
      BCont req included (Msg.tool rc i :: out)

/-- Shape of the final output: every assistant message either declares no ids
or heads a block whose tool run covers all of its declared ids; tool messages
occur only inside such blocks. -/
inductive Valid : List Msg → Prop
  | nil : Valid []
  | simple (m : Msg) (rest : List Msg) :
      m.isToolMsg = false → declaredIds m = [] → Valid rest → Valid (m :: rest)
  | block (c : String) (tcs : List ToolCall) (tools rest : List Msg) :
      (∀ t ∈ tools, ∃ rc i, t = Msg.tool rc i ∧ i ≠ "" ∧ i ∈ requiredIdsOf tcs) →
      (∀ i ∈ requiredIdsOf tcs, ∃ rc, Msg.tool rc i ∈ tools) →
      Valid rest →
      Valid (Msg.ai c tcs :: (tools ++ rest))

theorem blocky_headNotTool {l : List Msg} (h : Blocky l) : headNotTool l := by
  cases h with
  | nil => trivial
  | simple m rest hm _ =>
    cases m with
    | tool c i => exact absurd hm (by simp [Msg.isToolMsg])
    | system c => trivial
    | human c => trivial
    | ai c tcs => trivial
  | block c tcs tools rest _ _ _ => trivial

theorem valid_headNotTool {l : List Msg} (h : Valid l) : headNotTool l := by
  cases h with
  | nil => trivial
  | simple m rest hm _ _ =>
    cases m with
    | tool c i => exact absurd hm (by simp [Msg.isToolMsg])
    | system c => trivial
    | human c => trivial
    | ai c tcs => trivial
  | block c tcs tools rest _ _ _ => trivial

/-- Inverting `Blocky` at a non-assistant head. -/
theorem blocky_cons_of_not_ai {m : Msg} {rest : List Msg}
    (h : Blocky (m :: rest)) (hm : ∀ c tcs, m ≠ Msg.ai c tcs) : Blocky rest := by
  cases h with
  | simple _ _ _ hrest => exact hrest
  | block c tcs tools rest2 _ _ _ => exact absurd rfl (hm c tcs)

/-- Decomposing an inclusion-state output into its tool run and its tail. -/
theorem bcont_decomp {req : List String} :
    ∀ {included : List String} {out : List Msg}, BCont req included out →
      ∃ tools out', out = tools ++ out' ∧
        (∀ t ∈ tools, ∃ rc i, t = Msg.tool rc i ∧ i ≠ "" ∧ i ∈ req) ∧
        (toolIdList tools).Nodup ∧
        (∀ i ∈ toolIdList tools, i ∉ included) ∧
        Blocky out' := by
  intro included out h
  induction h with
  | exit inc o hb =>
    exact ⟨[], o, rfl, by simp, by simp [toolIdList], by simp [toolIdList], hb⟩
  | cons inc rc i o hne hreq hninc _ ih =>
    obtain ⟨tools, out', rfl, hprops, hnodup, hdisj, hb⟩ := ih
    refine ⟨Msg.tool rc i :: tools, out', rfl, ?_, ?_, ?_, hb⟩
    · intro t ht
      rcases List.mem_cons.1 ht with rfl | ht'
      · exact ⟨rc, i, rfl, hne, hreq⟩
      · exact hprops t ht'
    · rw [toolIdList_cons_tool]
      refine List.nodup_cons.2 ⟨?_, hnodup⟩
      intro hmem
      exact hdisj i hmem (List.mem_cons_self _ _)
    · intro j hj
      rw [toolIdList_cons_tool] at hj
      rcases List.mem_cons.1 hj with rfl | hj'
      · exact hninc
      · intro hjin
        exact hdisj j hj' (List.mem_cons_of_mem _ hjin)

theorem validateA_cons (allIds : List String) (m : Msg) (rest : List Msg) (mode : VMode) :
    validateA allIds (m :: rest) mode
      = (stepA allIds mode m).1 ++ validateA allIds rest (stepA allIds mode m).2 := rfl

/-- Outer-loop processing of one message preserves the block structure of the
first pass's output. -/
theorem normStepA_blocky (allIds : List String) (m : Msg) (rest : List Msg)
    (hn : Blocky (validateA allIds rest .normal))
    (hsk : ∀ req, Blocky (validateA allIds rest (.skip req)))
    (hin : ∀ req included, BCont req included (validateA allIds rest (.incl req included))) :
    Blocky ((normStepA allIds m).1 ++ validateA allIds rest (normStepA allIds m).2) := by
  cases m with
  | system c =>
    exact Blocky.simple _ _ (by simp [Msg.isToolMsg]) hn
  | human c =>
    exact Blocky.simple _ _ (by simp [Msg.isToolMsg]) hn
  | tool c i =>
    exact hn
  | ai c tcs =>
    simp only [normStepA]
    split_ifs with h1 h2 h3
    · exact Blocky.simple _ _ (by simp [Msg.isToolMsg]) hn
    · exact Blocky.simple _ _ (by simp [Msg.isToolMsg]) hn
    · show Blocky (Msg.ai c tcs :: validateA allIds rest (.incl (requiredIdsOf tcs) []))
      obtain ⟨tools, out', heq, hprops, hnodup, _, hb⟩ :=
        bcont_decomp (hin (requiredIdsOf tcs) [])
      rw [heq]
      exact Blocky.block c tcs tools out' hprops hnodup hb
    · show Blocky (validateA allIds rest (.skip (requiredIdsOf tcs)))
      exact hsk _

theorem validateA_blocky_aux (allIds : List String) :
    ∀ l : List Msg,
      Blocky (validateA allIds l .normal) ∧
      (∀ req, Blocky (validateA allIds l (.skip req))) ∧
      (∀ req included, BCont req included (validateA allIds l (.incl req included))) := by
  intro l
  induction l with
  | nil =>
    exact ⟨Blocky.nil, fun _ => Blocky.nil, fun _ _ => BCont.exit _ _ Blocky.nil⟩
  | cons m rest ih =>
    obtain ⟨hn, hsk, hin⟩ := ih
    have hnorm : Blocky (validateA allIds (m :: rest) .normal) := by
      rw [validateA_cons]
      exact normStepA_blocky allIds m rest hn hsk hin
    refine ⟨hnorm, ?_, ?_⟩
    · intro req
      cases m with
      | system c => exact hnorm
      | human c => exact hnorm
      | ai c tcs => exact hnorm
      | tool c i =>
        by_cases hcond : i ≠ "" ∧ i ∈ req
        · have hstep : stepA allIds (.skip req) (Msg.tool c i) = ([], .skip req) := by
            simp only [stepA, if_pos hcond]
          rw [validateA_cons, hstep, List.nil_append]
          exact hsk req
        · have hstep : stepA allIds (.skip req) (Msg.tool c i) = ([], .normal) := by
            simp only [stepA, if_neg hcond, normStepA]
          rw [validateA_cons, hstep, List.nil_append]
          exact hn
    · intro req included
      cases m with
      | system c => exact BCont.exit _ _ hnorm
      | human c => exact BCont.exit _ _ hnorm
      | ai c tcs => exact BCont.exit _ _ hnorm
      | tool c i =>
        by_cases hcond : i ≠ "" ∧ i ∈ req
        · by_cases hdup : i ∈ included
          · have hstep : stepA allIds (.incl req included) (Msg.tool c i)
                = ([], .incl req included) := by
              simp only [stepA, if_pos hcond, if_pos hdup]
            rw [validateA_cons, hstep, List.nil_append]
            exact hin req included
          · have hstep : stepA allIds (.incl req included) (Msg.tool c i)
                = ([Msg.tool c i], .incl req (i :: included)) := by
              simp only [stepA, if_pos hcond, if_neg hdup]
            rw [validateA_cons, hstep, List.singleton_append]
            exact BCont.cons included c i _ hcond.1 hcond.2 hdup (hin req (i :: included))
        · have hstep : stepA allIds (.incl req included) (Msg.tool c i) = ([], .normal) := by
            simp only [stepA, if_neg hcond, normStepA]
          refine BCont.exit _ _ ?_
          rw [validateA_cons, hstep, List.nil_append]
          have hstep' : stepA allIds .normal (Msg.tool c i) = ([], .normal) := rfl
          rw [validateA_cons, hstep', List.nil_append] at hnorm
          exact hnorm

/-- The first validation pass always produces a `Blocky` list. -/
theorem validateA_blocky (allIds : List String) (l : List Msg) :
    Blocky (validateA allIds l .normal) :=
  (validateA_blocky_aux allIds l).1

theorem validateB_cons (allIds : List String) (m : Msg) (rest : List Msg) (mode : VMode) :
    validateB allIds (m :: rest) mode
      = (stepB allIds mode m rest).1 ++ validateB allIds rest (stepB allIds mode m rest).2 := rfl

theorem scanFound_nil_of_headNotTool (req : List String) (l : List Msg)
    (h : headNotTool l) : scanFound req l = [] := by
  cases l with
  | nil => rfl
  | cons m r =>
    cases m with
    | tool c i => exact h.elim
    | system c => rfl
    | human c => rfl
    | ai c tcs => rfl

/-- Scanning a block run: the found ids are exactly the run's tool ids. -/
theorem mem_scanFound_blockRun (req : List String) :
    ∀ (tools rest : List Msg),
      (∀ t ∈ tools, ∃ rc i, t = Msg.tool rc i ∧ i ≠ "" ∧ i ∈ req) →
      headNotTool rest →
      ∀ x, (x ∈ scanFound req (tools ++ rest) ↔ x ∈ toolIdList tools) := by
  intro tools
  induction tools with
  | nil =>
    intro rest hprops hh x
    simp only [List.nil_append, toolIdList_nil]
    rw [scanFound_nil_of_headNotTool req rest hh]
  | cons t tools' ih =>
    intro rest hprops hh x
    obtain ⟨rc, i, rfl, hne, hreq⟩ := hprops t (List.mem_cons_self _ _)
    have hscan : scanFound req (Msg.tool rc i :: (tools' ++ rest))
        = insertId (scanFound req (tools' ++ rest)) i := by
      simp only [scanFound, if_pos (⟨hne, hreq⟩ : i ≠ "" ∧ i ∈ req)]
    rw [List.cons_append, hscan, toolIdList_cons_tool, mem_insertId,
      ih rest (fun t ht => hprops t (List.mem_cons_of_mem _ ht)) hh x]
    constructor
    · rintro (h | ⟨_, rfl⟩)
      · exact List.mem_cons_of_mem _ h
      · exact List.mem_cons_self _ _
    · intro h
      rcases List.mem_cons.1 h with rfl | h'
      · exact Or.inr ⟨hne, rfl⟩
      · exact Or.inl h'

theorem setEqb_iff {a b : List String} :
    setEqb a b = true ↔ (∀ x ∈ a, x ∈ b) ∧ (∀ x ∈ b, x ∈ a) := by
  simp [setEqb, List.all_eq_true]

theorem isEmpty_false_iff {α : Type} {l : List α} : l.isEmpty = false ↔ l ≠ [] := by
  cases l <;> simp

/-- Inverting `Blocky` at an assistant head: either a `simple` step, or a
block decomposition of the tail. -/
theorem blocky_cons_ai_inv {c : String} {tcs : List ToolCall} {restl : List Msg}
    (hB : Blocky (Msg.ai c tcs :: restl)) :
    Blocky restl ∨
    (∃ tools rest2, restl = tools ++ rest2 ∧
      (∀ t ∈ tools, ∃ rc i, t = Msg.tool rc i ∧ i ≠ "" ∧ i ∈ requiredIdsOf tcs) ∧
      (toolIdList tools).Nodup ∧ Blocky rest2) := by
  cases hB with
  | simple _ _ _ h => exact Or.inl h
  | block _ _ tools rest2 hts hnodup hrest =>
    exact Or.inr ⟨tools, rest2, rfl, hts, hnodup, hrest⟩

set_option maxHeartbeats 1000000 in
/-- The final safety pass, run on a `Blocky` list, produces a `Valid` list.
The three conjuncts track the three control states: in the skip state the
remaining tool run (`tools`) is discarded; in the inclusion state it is
emitted verbatim and the tail is processed normally. -/
theorem validateB_valid_aux (allIds : List String) :
    ∀ l : List Msg,
      (Blocky l → Valid (validateB allIds l .normal)) ∧
      (∀ req tools rest, l = tools ++ rest →
        (∀ t ∈ tools, ∃ rc i, t = Msg.tool rc i ∧ i ≠ "" ∧ i ∈ req) →
        Blocky rest →
        Valid (validateB allIds l (.skip req))) ∧
      (∀ req included tools rest, l = tools ++ rest →
        (∀ t ∈ tools, ∃ rc i, t = Msg.tool rc i ∧ i ≠ "" ∧ i ∈ req ∧ i ∉ included) →
        (toolIdList tools).Nodup →
        Blocky rest →
        ∃ out', validateB allIds l (.incl req included) = tools ++ out' ∧ Valid out') := by
  intro l
  induction l with
  | nil =>
    refine ⟨fun _ => Valid.nil, fun req tools rest heq _ _ => Valid.nil, ?_⟩
    intro req included tools rest heq hprops hnodup hrest
    obtain ⟨rfl, rfl⟩ := List.append_eq_nil.1 heq.symm
    exact ⟨[], rfl, Valid.nil⟩
  | cons m restl ih =>
    obtain ⟨hn, hsk, hin⟩ := ih
    have hnormal : Blocky (m :: restl) → Valid (validateB allIds (m :: restl) .normal) := by
      intro hB
      cases m with
      | system c =>
        show Valid (Msg.system c :: validateB allIds restl .normal)
        have hBrest : Blocky restl :=
          blocky_cons_of_not_ai hB (fun c' tcs' h => Msg.noConfusion h)
        exact Valid.simple _ _ (by simp [Msg.isToolMsg]) rfl (hn hBrest)
      | human c =>
        show Valid (Msg.human c :: validateB allIds restl .normal)
        have hBrest : Blocky restl :=
          blocky_cons_of_not_ai hB (fun c' tcs' h => Msg.noConfusion h)
        exact Valid.simple _ _ (by simp [Msg.isToolMsg]) rfl (hn hBrest)
      | tool c i =>
        exact (blocky_headNotTool hB).elim
      | ai c tcs =>
        rcases blocky_cons_ai_inv hB with hBrest | ⟨tools, rest2, hrestl, hts, hnodupT, hBrest2⟩
        · -- simple step: the tail starts with a non-tool message
          have hh : headNotTool restl := blocky_headNotTool hBrest
          rw [validateB_cons]
          simp only [stepB, normStepB]
          split_ifs with h1 h2 h3
          · show Valid (Msg.ai c tcs :: validateB allIds restl .normal)
            have htcs : tcs = [] := by simpa using h1
            subst htcs
            exact Valid.simple _ _ (by simp [Msg.isToolMsg]) rfl (hn hBrest)
          · -- the scan over a non-tool head is empty, yet the non-empty
            -- required set compared equal: impossible
            exfalso
            rw [scanFound_nil_of_headNotTool _ _ hh] at h3
            have hne : requiredIdsOf tcs ≠ [] := by
              intro hcon
              exact h2.1 (by simp [hcon])
            cases hreq : requiredIdsOf tcs with
            | nil => exact hne hreq
            | cons y ys =>
              have := (setEqb_iff.1 h3).2 y (by rw [hreq]; exact List.mem_cons_self _ _)
              simp at this
          · show Valid (validateB allIds restl (.skip (requiredIdsOf tcs)))
            exact hsk _ [] restl rfl (by simp) hBrest
          · show Valid (validateB allIds restl (.skip (requiredIdsOf tcs)))
            exact hsk _ [] restl rfl (by simp) hBrest
        · -- block step: the tail is a tool run for this assistant message
          subst hrestl
          have hh2 : headNotTool rest2 := blocky_headNotTool hBrest2
          rw [validateB_cons]
          simp only [stepB, normStepB]
          split_ifs with h1 h2 h3
          · show Valid (Msg.ai c tcs :: validateB allIds (tools ++ rest2) .normal)
            have htcs : tcs = [] := by simpa using h1
            subst htcs
            have htools : tools = [] := by
              cases tools with
              | nil => rfl
              | cons t ts =>
                obtain ⟨rc, i, _, _, hreq⟩ := hts t (List.mem_cons_self _ _)
                simp [requiredIdsOf, addIds] at hreq
            subst htools
            exact Valid.simple _ _ (by simp [Msg.isToolMsg]) rfl (hn hBrest2)
          · -- scan matched: include the assistant message and its whole run
            show Valid (Msg.ai c tcs ::
              validateB allIds (tools ++ rest2) (.incl (requiredIdsOf tcs) []))
            obtain ⟨out', heq', hvalid⟩ :=
              hin (requiredIdsOf tcs) [] tools rest2 rfl
                (by
                  intro t ht
                  obtain ⟨rc, i, rfl, hne, hreq⟩ := hts t ht
                  exact ⟨rc, i, rfl, hne, hreq, by simp⟩)
                hnodupT hBrest2
            rw [heq']
            refine Valid.block c tcs tools out' hts ?_ hvalid
            intro i hi
            have hscan := (setEqb_iff.1 h3).2 i hi
            rw [mem_scanFound_blockRun (requiredIdsOf tcs) tools rest2 hts hh2 i] at hscan
            exact mem_toolIdList.1 hscan
          · show Valid (validateB allIds (tools ++ rest2) (.skip (requiredIdsOf tcs)))
            exact hsk _ tools rest2 rfl hts hBrest2
          · show Valid (validateB allIds (tools ++ rest2) (.skip (requiredIdsOf tcs)))
            exact hsk _ tools rest2 rfl hts hBrest2
    refine ⟨hnormal, ?_, ?_⟩
    · -- skip state
      intro req tools rest heq hprops hBrest
      cases tools with
      | nil =>
        simp only [List.nil_append] at heq
        subst heq
        have hh : headNotTool (m :: restl) := blocky_headNotTool hBrest
        cases m with
        | tool c i => exact hh.elim
        | system c => exact hnormal hBrest
        | human c => exact hnormal hBrest
        | ai c tcs => exact hnormal hBrest
      | cons t tools' =>
        obtain ⟨rc, i, rfl, hne, hreq⟩ := hprops t (List.mem_cons_self _ _)
        rw [List.cons_append] at heq
        injection heq with hm hrestl
        subst hm
        have hstep : stepB allIds (.skip req) (Msg.tool rc i) restl = ([], .skip req) := by
          simp only [stepB, if_pos (⟨hne, hreq⟩ : i ≠ "" ∧ i ∈ req)]
        rw [validateB_cons, hstep, List.nil_append]
        exact hsk req tools' rest hrestl
          (fun t ht => hprops t (List.mem_cons_of_mem _ ht)) hBrest
    · -- inclusion state
      intro req included tools rest heq hprops hnodup hBrest
      cases tools with
      | nil =>
        simp only [List.nil_append] at heq
        subst heq
        have hh : headNotTool (m :: restl) := blocky_headNotTool hBrest
        cases m with
        | tool c i => exact hh.elim
        | system c =>
          exact ⟨validateB allIds (Msg.system c :: restl) .normal, rfl, hnormal hBrest⟩
        | human c =>
          exact ⟨validateB allIds (Msg.human c :: restl) .normal, rfl, hnormal hBrest⟩
        | ai c tcs =>
          exact ⟨validateB allIds (Msg.ai c tcs :: restl) .normal, rfl, hnormal hBrest⟩
      | cons t tools' =>
        obtain ⟨rc, i, rfl, hne, hreq, hninc⟩ := hprops t (List.mem_cons_self _ _)
        rw [List.cons_append] at heq
        injection heq with hm hrestl
        subst hm
        rw [toolIdList_cons_tool] at hnodup
        have hi_not := (List.nodup_cons.1 hnodup).1
        have hnodup' := (List.nodup_cons.1 hnodup).2
        have hstep : stepB allIds (.incl req included) (Msg.tool rc i) restl
            = ([Msg.tool rc i], .incl req (i :: included)) := by
          simp only [stepB,
            if_pos (⟨hne, hreq, hninc⟩ : i ≠ "" ∧ i ∈ req ∧ i ∉ included)]
        obtain ⟨out', heq', hvalid⟩ :=
          hin req (i :: included) tools' rest hrestl
            (by
              intro t ht
              obtain ⟨rc', i', rfl, hne', hreq', hninc'⟩ :=
                hprops t (List.mem_cons_of_mem _ ht)
              refine ⟨rc', i', rfl, hne', hreq', ?_⟩
              intro hcon
              rcases List.mem_cons.1 hcon with rfl | h'
              · exact hi_not (mem_toolIdList.2 ⟨rc', ht⟩)
              · exact hninc' h')
            hnodup' hBrest
        refine ⟨out', ?_, hvalid⟩
        rw [validateB_cons, hstep, List.singleton_append, heq', List.cons_append]

/-- First half of atomicity, read off `Valid`: every assistant message in the
list has a matching tool result in the list for each declared id. -/
theorem valid_atomic_mem {l : List Msg} (hv : Valid l) :
    ∀ c tcs, Msg.ai c tcs ∈ l → ∀ i ∈ requiredIdsOf tcs, ∃ rc, Msg.tool rc i ∈ l := by
  induction hv with
  | nil => intro c tcs h; simp at h
  | simple m rest hnt hdecl hrest ih =>
    intro c tcs hmem i hi
    rcases List.mem_cons.1 hmem with heq | hmem'
    · rw [← heq] at hdecl
      simp only [declaredIds] at hdecl
      rw [hdecl] at hi
      simp at hi
    · obtain ⟨rc, hrc⟩ := ih c tcs hmem' i hi
      exact ⟨rc, List.mem_cons_of_mem _ hrc⟩
  | block c2 tcs2 tools rest hts hcov hrest ih =>
    intro c tcs hmem i hi
    rcases List.mem_cons.1 hmem with heq | hmem'
    · obtain ⟨rfl, rfl⟩ : c2 = c ∧ tcs2 = tcs := by
        injection heq.symm with h1 h2
        exact ⟨h1, h2⟩
      obtain ⟨rc, hrc⟩ := hcov i hi
      exact ⟨rc, List.mem_cons_of_mem _ (List.mem_append.2 (Or.inl hrc))⟩
    · rcases List.mem_append.1 hmem' with hmt | hmr
      · obtain ⟨rc', i', heq', _, _⟩ := hts _ hmt
        exact absurd heq' (by simp)
      · obtain ⟨rc, hrc⟩ := ih c tcs hmr i hi
        exact ⟨rc, List.mem_cons_of_mem _ (List.mem_append.2 (Or.inr hrc))⟩

/-- Second half of atomicity, read off `Valid`: every tool result in the list
is preceded by an assistant message declaring its id. -/
theorem valid_atomic_earlier {l : List Msg} (hv : Valid l) :
    ∀ pre rc tcid post, l = pre ++ Msg.tool rc tcid :: post →
      ∃ c tcs, Msg.ai c tcs ∈ pre ∧ tcid ∈ requiredIdsOf tcs := by
  induction hv with
  | nil =>
    intro pre rc tcid post h
    exact absurd h.symm (by simp)
  | simple m rest hnt hdecl hrest ih =>
    intro pre rc tcid post h
    cases pre with
    | nil =>
      simp only [List.nil_append] at h
      injection h with h1 h2
      rw [h1] at hnt
      simp [Msg.isToolMsg] at hnt
    | cons p pre' =>
      rw [List.cons_append] at h
      injection h with h1 h2
      obtain ⟨c, tcs, hmem, hid⟩ := ih pre' rc tcid post h2
      exact ⟨c, tcs, List.mem_cons_of_mem _ hmem, hid⟩
  | block c2 tcs2 tools rest hts hcov hrest ih =>
    intro pre rc tcid post h
    cases pre with
    | nil =>
      simp only [List.nil_append] at h
      exact absurd (congrArg List.head? h).symm (by simp)
    | cons p pre' =>
      rw [List.cons_append] at h
      injection h with h1 h2
      rcases List.append_eq_append_iff.1 h2 with ⟨a', hpre', hrest'⟩ | ⟨c', htools, hpost⟩
      · obtain ⟨c, tcs, hmem, hid⟩ := ih a' rc tcid post hrest'
        refine ⟨c, tcs, ?_, hid⟩
        rw [hpre']
        exact List.mem_cons_of_mem _ (List.mem_append.2 (Or.inr hmem))
      · cases c' with
        | nil =>
          rw [List.nil_append] at hpost
          have := valid_headNotTool hrest
          rw [← hpost] at this
          exact this.elim
        | cons x c'' =>
          rw [List.cons_append] at hpost
          injection hpost with hx hc''
          have hxin : Msg.tool rc tcid ∈ tools := by
            rw [htools, ← hx]
            exact List.mem_append.2 (Or.inr (List.mem_cons_self _ _))
          obtain ⟨rc', i', heq', hne', hreq'⟩ := hts _ hxin
          injection heq' with hco hio
          refine ⟨c2, tcs2, ?_, ?_⟩
          · rw [← h1]
            exact List.mem_cons_self _ _
          · rw [hio]
            exact hreq'

/-- Atomicity holds for the output of the final safety pass on any `Blocky`
input, with any (non-tool, id-free) message — such as the system message —
prepended. -/
theorem valid_cons_atomic {m0 : Msg} {l : List Msg}
    (hm0 : m0.isToolMsg = false) (hd0 : declaredIds m0 = []) (hv : Valid l) :
    (∀ c tcs, Msg.ai c tcs ∈ m0 :: l →
      ∀ i ∈ requiredIdsOf tcs, ∃ rc, Msg.tool rc i ∈ m0 :: l) ∧
    (∀ pre rc tcid post, m0 :: l = pre ++ Msg.tool rc tcid :: post →
      ∃ c tcs, Msg.ai c tcs ∈ pre ∧ tcid ∈ requiredIdsOf tcs) := by
  have hv' : Valid (m0 :: l) := Valid.simple m0 l hm0 hd0 hv
  exact ⟨valid_atomic_mem hv', valid_atomic_earlier hv'⟩

/-- Claim C1: for every input message list, system message and budgets, the
output of `truncate_messages` never contains an assistant message carrying
tool calls unless every declared tool-call id has a matching tool-result
message also present in the output, and never contains a tool-result message
whose `tool_call_id` has no matching assistant message earlier in the
output. -/
theorem C1_tool_call_atomicity (messages : List Msg) (sysc : Option String) (N T : Nat) :
    (∀ c tcs, Msg.ai c tcs ∈ truncate_messages messages sysc N T →
      ∀ i ∈ requiredIdsOf tcs, ∃ rc, Msg.tool rc i ∈ truncate_messages messages sysc N T) ∧
    (∀ pre rc tcid post,
      truncate_messages messages sysc N T = pre ++ Msg.tool rc tcid :: post →
      ∃ c tcs, Msg.ai c tcs ∈ pre ∧ tcid ∈ requiredIdsOf tcs) := by
  by_cases h : (filteredMessages messages).isEmpty
  · cases sysc with
    | some s =>
      rw [truncate_eq_of_some_empty messages s N T h]
      constructor
      · intro c tcs hmem
        simp at hmem
      · intro pre rc tcid post hpre
        cases pre with
        | nil =>
          simp only [List.nil_append] at hpre
          injection hpre with h1 h2
          exact Msg.noConfusion h1
        | cons p pre' =>
          rw [List.cons_append] at hpre
          injection hpre with h1 h2
          exact absurd h2.symm (by simp)
    | none =>
      have hout : truncate_messages messages none N T = [] := by
        simp [truncate_messages, h]
      rw [hout]
      constructor
      · intro c tcs hmem
        simp at hmem
      · intro pre rc tcid post hpre
        exact absurd hpre.symm (by simp)
  · have hblocky : Blocky (validatedMessages messages sysc N T) := by
      rw [validatedMessages]
      exact validateA_blocky _ _
    cases sysc with
    | some s =>
      rw [truncate_eq_of_some messages s N T h]
      exact valid_cons_atomic (by simp [Msg.isToolMsg]) rfl
        ((validateB_valid_aux _ _).1 hblocky)
    | none =>
      rcases hv : validatedMessages messages none N T with _ | ⟨m, restV⟩
      · have hout : truncate_messages messages none N T = [] := by
          rw [truncate_eq_of_none messages N T h, hv]
          rfl
        rw [hout]
        constructor
        · intro c tcs hmem
          simp at hmem
        · intro pre rc tcid post hpre
          exact absurd hpre.symm (by simp)
      · rw [hv] at hblocky
        cases m with
        | system sc =>
          have hout : truncate_messages messages none N T
              = Msg.system sc :: validateB (toolIds restV) restV .normal := by
            rw [truncate_eq_of_none messages N T h, hv]
          rw [hout]
          have hBrest : Blocky restV :=
            blocky_cons_of_not_ai hblocky (fun c' tcs' hcon => Msg.noConfusion hcon)
          exact valid_cons_atomic (by simp [Msg.isToolMsg]) rfl
            ((validateB_valid_aux _ _).1 hBrest)
        | human c =>
          have hout : truncate_messages messages none N T
              = validateB (toolIds (Msg.human c :: restV)) (Msg.human c :: restV) .normal := by
            rw [truncate_eq_of_none messages N T h, hv]
          rw [hout]
          have hvalid := (validateB_valid_aux (toolIds (Msg.human c :: restV)) _).1 hblocky
          exact ⟨valid_atomic_mem hvalid, valid_atomic_earlier hvalid⟩
        | ai c tcs =>
          have hout : truncate_messages messages none N T
              = validateB (toolIds (Msg.ai c tcs :: restV)) (Msg.ai c tcs :: restV) .normal := by
            rw [truncate_eq_of_none messages N T h, hv]
          rw [hout]
          have hvalid := (validateB_valid_aux (toolIds (Msg.ai c tcs :: restV)) _).1 hblocky
          exact ⟨valid_atomic_mem hvalid, valid_atomic_earlier hvalid⟩
        | tool c i =>
          exact (blocky_headNotTool hblocky).elim

theorem C1_tool_call_atomicity_witness :
    (∃ rc, Msg.tool rc "t" ∈ truncate_messages [Msg.ai "A" [⟨"t", "f", "x"⟩],
        Msg.tool "ra" "t", Msg.ai "B" [⟨"t", "f", "x"⟩], Msg.tool "rb" "t"]
        (some "s") 20 100000) ∧
    (∃ c tcs, Msg.ai c tcs ∈ [Msg.system "s", Msg.ai "A" [⟨"t", "f", "x"⟩]] ∧
      "t" ∈ requiredIdsOf tcs) := by
  have h := C1_tool_call_atomicity [Msg.ai "A" [⟨"t", "f", "x"⟩], Msg.tool "ra" "t",
    Msg.ai "B" [⟨"t", "f", "x"⟩], Msg.tool "rb" "t"] (some "s") 20 100000
  constructor
  · exact h.1 "A" [⟨"t", "f", "x"⟩] (by decide) "t" (by decide)
  · exact h.2 [Msg.system "s", Msg.ai "A" [⟨"t", "f", "x"⟩]] "rb" "t" [] (by decide)
